import Mathlib

/-!
Verification of the core of the dummyMCP repository: the LLM-response JSON
extractor (`extractJsonFromLLMResponse`, src/utils.ts lines 3-18) and the
parameterized query builder (`buildQuery`, src/utils.ts lines 20-33), together
with the zod output schema (`OutputSchema`, src/index.ts lines 20-25).

The TypeScript source is embedded shallowly:

* JSON values are the inductive `Json`; JavaScript `JSON.parse` is modelled by
  `jsonParse`, a fuelled recursive-descent parser over `List Char` following the
  JSON grammar that `JSON.parse` accepts (numbers become exact rationals; the
  only deliberate deviation is that `\uXXXX` escapes denoting lone UTF-16
  surrogates are rejected, because `Char` cannot represent lone surrogates).
* The zod schema `z.object({...all fields optional...})` is modelled by
  `Schema`/`schemaParse`: an object validates when every declared field that is
  present passes its check; unknown fields are stripped; non-objects fail.
* The regex fallback uses the JavaScript pattern (three backticks, an optional
  case-insensitive json tag, greedy whitespace, then a lazy capture up to the
  next three backticks), modelled by `fencedFrom`, which scans for the leftmost
  position where a full match exists, exactly as the backtracking engine does.
* `String.prototype.trim` and the regex class backslash-s use the JavaScript
  whitespace set, modelled by `isJsWs` (the JSON inter-token whitespace set
  `isJsonWs` is the smaller set used by `JSON.parse` itself).
* `buildQuery` values are `JsVal`: a JSON scalar or `undefined`; the filter
  keeps a value unless it is strictly `undefined`, `null` or the empty string.
-/

/-- A JavaScript JSON value. Numbers are modelled as exact rationals (a
superset of the finite binary doubles `JSON.parse` produces). -/
inductive Json where
  | null
  | bool (b : Bool)
  | num (q : Rat)
  | str (s : String)
  | arr (elems : List Json)
  | obj (fields : List (String × Json))

/-- The whitespace characters `JSON.parse` skips between tokens. -/
def isJsonWs (c : Char) : Bool :=
  c.toNat = 32 || c.toNat = 9 || c.toNat = 10 || c.toNat = 13

/-- Drop JSON inter-token whitespace. -/
def jsonSkipWs (cs : List Char) : List Char := cs.dropWhile isJsonWs

/-- Consume an exact literal tail (the `ull` of `null`, etc.). -/
def expectLit (lit : List Char) (j : Json) (cs : List Char) : Option (Json × List Char) :=
  if lit.isPrefixOf cs then some (j, cs.drop lit.length) else none

/-- Value of one hexadecimal digit. -/
def hexVal (c : Char) : Option Nat :=
  let n := c.toNat
  if 48 ≤ n && n ≤ 57 then some (n - 48)
  else if 97 ≤ n && n ≤ 102 then some (n - 87)
  else if 65 ≤ n && n ≤ 70 then some (n - 55)
  else none

/-- The single-character string escapes of JSON. -/
def escChar : Char → Option Char
  | '"' => some '"'
  | '\\' => some '\\'
  | '/' => some '/'
  | 'b' => some (Char.ofNat 8)
  | 'f' => some (Char.ofNat 12)
  | 'n' => some '\n'
  | 'r' => some '\r'
  | 't' => some '\t'
  | _ => none

/-- Decode one `\uXXXX` escape body (after the backslash-u), combining a
surrogate pair when the first code unit is a high surrogate; a lone surrogate
escape is rejected because `Char` has no lone surrogates (`JSON.parse` would
accept it). -/
def decodeUEsc (rest2 : List Char) : Option (Char × List Char) :=
  match rest2 with
  | a :: b :: c2 :: d :: rest3 =>
    match hexVal a, hexVal b, hexVal c2, hexVal d with
    | some ha, some hb, some hc, some hd =>
      let n := ((ha * 16 + hb) * 16 + hc) * 16 + hd
      if 0xD800 ≤ n && n ≤ 0xDBFF then
        match rest3 with
        | b1 :: b2 :: e1 :: f1 :: g1 :: h1 :: rest4 =>
          if b1 == '\\' && b2 == 'u' then
            match hexVal e1, hexVal f1, hexVal g1, hexVal h1 with
            | some he, some hf, some hg, some hh =>
              let m := ((he * 16 + hf) * 16 + hg) * 16 + hh
              if 0xDC00 ≤ m && m ≤ 0xDFFF then
                some (Char.ofNat (0x10000 + (n - 0xD800) * 0x400 + (m - 0xDC00)), rest4)
              else none
            | _, _, _, _ => none
          else none
        | _ => none
      else if 0xDC00 ≤ n && n ≤ 0xDFFF then none
      else some (Char.ofNat n, rest3)
    | _, _, _, _ => none
  | _ => none

/-- JSON string body parser, positioned right after the opening quote. The
fuel only bounds recursion depth; callers pass the remaining length plus one,
which at least one consumed character per step can never exhaust. -/
def parseStringAux : Nat → List Char → List Char → Option (String × List Char)
  | 0, _, _ => none
  | _, _, [] => none
  | fuel+1, acc, c :: rest =>
    if c == '"' then some (⟨acc.reverse⟩, rest)
    else if c == '\\' then
      match rest with
      | [] => none
      | e :: rest2 =>
        if e == 'u' then
          match decodeUEsc rest2 with
          | some (ch, rest3) => parseStringAux fuel (ch :: acc) rest3
          | none => none
        else
          match escChar e with
          | some ch => parseStringAux fuel (ch :: acc) rest2
          | none => none
    else if c.toNat < 32 then none
    else parseStringAux fuel (c :: acc) rest

/-- Leading run of decimal digits and the remainder. -/
def spanDigits (cs : List Char) : List Char × List Char :=
  (cs.takeWhile Char.isDigit, cs.dropWhile Char.isDigit)

/-- Numeric value of a digit string. -/
def digitsVal (ds : List Char) : Nat :=
  ds.foldl (fun a c => 10 * a + (c.toNat - '0'.toNat)) 0

/-- Exponent part of a JSON number, positioned right after the `e`/`E`. -/
def parseExpPart (cs : List Char) : Option (Int × List Char) :=
  let sp : Bool × List Char :=
    match cs with
    | c :: r => if c == '+' then (false, r) else if c == '-' then (true, r) else (false, c :: r)
    | [] => (false, [])
  match spanDigits sp.2 with
  | ([], _) => none
  | (ds, rest) =>
    some (if sp.1 then -(digitsVal ds : Int) else (digitsVal ds : Int), rest)

/-- The exact rational value of a parsed JSON number. -/
def mkNum (neg : Bool) (ipart fval flen : Nat) (e : Int) : Rat :=
  let mag : Rat := ((ipart * 10 ^ flen + fval : Nat) : Rat) / ((10 ^ flen : Nat) : Rat) *
    (10 : Rat) ^ e
  if neg then -mag else mag

/-- The exponent-and-result step of JSON number parsing: positioned at the
text after the fraction, with the sign, integer part and fraction accumulated. -/
def pnExp (neg : Bool) (i fval flen : Nat) (rest2 : List Char) :
    Option (Json × List Char) :=
  let ex : Option (Int × List Char) :=
    match rest2 with
    | c2 :: r3 => if c2 == 'e' || c2 == 'E' then parseExpPart r3 else some (0, c2 :: r3)
    | [] => some (0, [])
  match ex with
  | none => none
  | some (e, rest3) => some (.num (mkNum neg i fval flen e), rest3)

/-- The fraction step of JSON number parsing: positioned at the text after the
integer part (a fraction needs at least one digit after the dot). -/
def pnTail (neg : Bool) (i : Nat) (t : List Char) : Option (Json × List Char) :=
  let fr : Option (Nat × Nat × List Char) :=
    match t with
    | c2 :: r2 =>
      if c2 == '.' then
        match spanDigits r2 with
        | ([], _) => none
        | (ds, rest2) => some (digitsVal ds, ds.length, rest2)
      else some (0, 0, c2 :: r2)
    | [] => some (0, 0, [])
  match fr with
  | none => none
  | some (fval, flen, rest2) => pnExp neg i fval flen rest2

/-- JSON number parser (grammar `-? int frac? exp?`, leading zeros refused). -/
def parseNumber (cs : List Char) : Option (Json × List Char) :=
  let sn : Bool × List Char :=
    match cs with
    | c :: r => if c == '-' then (true, r) else (false, c :: r)
    | [] => (false, [])
  match sn.2 with
  | [] => none
  | c :: r =>
    if !c.isDigit then none
    else if c == '0' then pnTail sn.1 0 r
    else pnTail sn.1 (digitsVal (spanDigits (c :: r)).1) (spanDigits (c :: r)).2

/-- JavaScript object-literal semantics for a duplicated key: the earliest
occurrence keeps its position, the latest occurrence keeps its value. -/
def jsObjInsert (k : String) (v : Json) (ms : List (String × Json)) :
    List (String × Json) :=
  match ms.lookup k with
  | some v' => (k, v') :: ms.filter fun kv => kv.1 != k
  | none => (k, v) :: ms

mutual

/-- One JSON value, fuelled; leading whitespace is skipped first. -/
def parseValue : Nat → List Char → Option (Json × List Char)
  | 0, _ => none
  | fuel+1, cs =>
    match jsonSkipWs cs with
    | [] => none
    | c :: r =>
      if c == 'n' then expectLit ['u', 'l', 'l'] .null r
      else if c == 't' then expectLit ['r', 'u', 'e'] (.bool true) r
      else if c == 'f' then expectLit ['a', 'l', 's', 'e'] (.bool false) r
      else if c == '"' then (parseStringAux (r.length + 1) [] r).map fun p => (.str p.1, p.2)
      else if c == '[' then
        match jsonSkipWs r with
        | c2 :: r2 =>
          if c2 == ']' then some (.arr [], r2)
          else (parseElems fuel (c2 :: r2)).map fun p => (.arr p.1, p.2)
        | [] => none
      else if c == '{' then
        match jsonSkipWs r with
        | c2 :: r2 =>
          if c2 == '}' then some (.obj [], r2)
          else (parseMembers fuel (c2 :: r2)).map fun p => (.obj p.1, p.2)
        | [] => none
      else if c == '-' || c.isDigit then parseNumber (c :: r)
      else none

/-- Non-empty comma-separated array elements, up to the closing bracket. -/
def parseElems : Nat → List Char → Option (List Json × List Char)
  | 0, _ => none
  | fuel+1, cs =>
    match parseValue fuel cs with
    | none => none
    | some (v, r) =>
      match jsonSkipWs r with
      | c2 :: r2 =>
        if c2 == ',' then (parseElems fuel r2).map fun p => (v :: p.1, p.2)
        else if c2 == ']' then some ([v], r2)
        else none
      | [] => none

/-- Non-empty object members, up to the closing brace; a duplicated key keeps
the first position and the last value, as JavaScript property assignment does. -/
def parseMembers : Nat → List Char → Option (List (String × Json) × List Char)
  | 0, _ => none
  | fuel+1, cs =>
    match jsonSkipWs cs with
    | c0 :: r =>
      if c0 == '"' then
        match parseStringAux (r.length + 1) [] r with
        | none => none
        | some (k, r1) =>
          match jsonSkipWs r1 with
          | c1 :: r2 =>
            if c1 == ':' then
              match parseValue fuel r2 with
              | none => none
              | some (v, r3) =>
                match jsonSkipWs r3 with
                | c3 :: r4 =>
                  if c3 == ',' then
                    (parseMembers fuel r4).map fun p => (jsObjInsert k v p.1, p.2)
                  else if c3 == '}' then some ([(k, v)], r4)
                  else none
                | [] => none
            else none
          | [] => none
      else none
    | [] => none

end

/-- Model of `JSON.parse` on a whole text: one value, then only whitespace.
The fuel `2 * length + 2` bounds the mutual recursion depth, which advances by
at most two calls per consumed character, so it is never exhausted. -/
def jsonParse (cs : List Char) : Option Json :=
  match parseValue (2 * cs.length + 2) cs with
  | some (j, rest) => if jsonSkipWs rest = [] then some j else none
  | none => none

/-- The JavaScript whitespace set: what `String.prototype.trim` strips and the
regex class backslash-s matches (WhiteSpace plus LineTerminator). -/
def isJsWs (c : Char) : Bool :=
  c.toNat = 32 || (9 <= c.toNat && c.toNat <= 13) ||
  c.toNat == 0xa0 || c.toNat == 0x1680 || (0x2000 <= c.toNat && c.toNat <= 0x200a) ||
  c.toNat == 0x2028 || c.toNat == 0x2029 || c.toNat == 0x202f || c.toNat == 0x205f ||
  c.toNat == 0x3000 || c.toNat == 0xfeff

/-- Model of `text.trim()`: strip JavaScript whitespace from both ends. -/
def jsTrim (cs : List Char) : List Char :=
  ((cs.dropWhile isJsWs).reverse.dropWhile isJsWs).reverse

/-- Three backticks at the head of the list. -/
def isFenceStart : List Char → Bool
  | c1 :: c2 :: c3 :: _ => c1 == '`' && c2 == '`' && c3 == '`'
  | _ => false

/-- The optional case-insensitive `json` language tag of the fence regex:
consumed greedily when present (consuming it never loses a match, because the
closing fence search is unaffected by these four non-backtick characters). -/
def dropJsonTag (cs : List Char) : List Char :=
  match cs with
  | c1 :: c2 :: c3 :: c4 :: rest =>
    if (c1 == 'j' || c1 == 'J') && (c2 == 's' || c2 == 'S') &&
        (c3 == 'o' || c3 == 'O') && (c4 == 'n' || c4 == 'N')
    then rest else cs
  | _ => cs

/-- Split at the first three-backtick fence: the text before it and the text
after it, or `none` when no fence occurs. -/
def splitAtFence : List Char → Option (List Char × List Char)
  | [] => none
  | c :: cs =>
    if isFenceStart (c :: cs) then some ([], (c :: cs).drop 3)
    else (splitAtFence cs).map fun p => (c :: p.1, p.2)

/-- The capture group of the fence regex when a match is attempted right after
an opening fence: drop the optional tag, drop greedy whitespace, then take
lazily up to the next fence (`none` when no closing fence follows). -/
def tryFenceAt (cs : List Char) : Option (List Char) :=
  (splitAtFence ((dropJsonTag cs).dropWhile isJsWs)).map fun p => p.1

/-- Model of `text.match(backtickFencePattern)` capture group 1: the regex
engine tries each start position from the left; a position matches when it
begins with three backticks and a closing fence exists further on. -/
def fencedFrom : List Char → Option (List Char)
  | [] => none
  | c :: cs =>
    if isFenceStart (c :: cs) then
      match tryFenceAt ((c :: cs).drop 3) with
      | some cap => some cap
      | none => fencedFrom cs
    else fencedFrom cs

/-- The field constraints occurring in `OutputSchema` (src/index.ts 20-25):
`z.string()`, `z.number()`, and `z.string().regex(datePattern)`. -/
inductive FieldType where
  | fString
  | fNumber
  | fDateString
deriving DecidableEq

/-- One declared optional field of a zod object schema. -/
structure SchemaField where
  name : String
  type : FieldType
deriving DecidableEq

/-- A zod object schema of independently optional scalar fields. -/
abbrev Schema := List SchemaField

/-- The anchored date pattern: four digits, hyphen, two digits, hyphen, two
digits, matching the whole string. -/
def matchesDatePattern (s : String) : Bool :=
  match s.data with
  | [y1, y2, y3, y4, h1, m1, m2, h2, d1, d2] =>
    y1.isDigit && y2.isDigit && y3.isDigit && y4.isDigit && h1 == '-' &&
    m1.isDigit && m2.isDigit && h2 == '-' && d1.isDigit && d2.isDigit
  | _ => false

/-- Whether a present value satisfies its declared field constraint. -/
def checkField : FieldType → Json → Bool
  | .fString, .str _ => true
  | .fNumber, .num _ => true
  | .fDateString, .str s => matchesDatePattern s
  | _, _ => false

/-- zod object validation over the member list: each declared field is looked
up; absent fields are skipped, present fields must pass their check, and the
output carries exactly the declared present fields (unknown keys stripped). -/
def parseFields (schema : Schema) (fields : List (String × Json)) :
    Option (List (String × Json)) :=
  match schema with
  | [] => some []
  | sf :: rest =>
    match fields.lookup sf.name with
    | none => parseFields rest fields
    | some v =>
      if checkField sf.type v then
        (parseFields rest fields).map fun tl => (sf.name, v) :: tl
      else none

/-- Model of `schema.parse(x)` for a zod object schema of optional fields:
non-objects are rejected, otherwise the member list is validated. -/
def schemaParse (schema : Schema) (j : Json) : Option Json :=
  match j with
  | .obj fields => (parseFields schema fields).map Json.obj
  | _ => none

/-- The `OutputSchema` of src/index.ts lines 20-25. -/
def OutputSchema : Schema :=
  [⟨"country_name", .fString⟩, ⟨"latitude", .fNumber⟩,
   ⟨"longitude", .fNumber⟩, ⟨"date", .fDateString⟩]

/-- The try-block of `extractJsonFromLLMResponse`: `schema.parse(JSON.parse(t))`,
with any thrown error mapped to `none`. -/
def directStage (cs : List Char) (schema : Schema) : Option Json :=
  (jsonParse cs).bind (schemaParse schema)

/-- The catch-block: find the first fenced block and parse-and-validate its
capture, `none` when there is no match or either step throws. -/
def fencedStage (cs : List Char) (schema : Schema) : Option Json :=
  match fencedFrom cs with
  | some inner => (jsonParse inner).bind (schemaParse schema)
  | none => none

/-- `extractJsonFromLLMResponse` (src/utils.ts 3-18) over a character list:
trim, try the direct stage, fall back to the fenced stage, else `null`. -/
def extractJson (text : List Char) (schema : Schema) : Option Json :=
  match directStage (jsTrim text) schema with
  | some v => some v
  | none => fencedStage (jsTrim text) schema

/-- `extractJsonFromLLMResponse(text, schema)`: `some` is a validated record,
`none` is the `null` the source returns on failure. -/
def extractJsonFromLLMResponse (text : String) (schema : Schema) : Option Json :=
  extractJson text.data schema

/-- A filter value handed to `buildQuery`: a JSON scalar value or `undefined`. -/
inductive JsVal where
  | undefined
  | val (j : Json)

/-- The retention test of `buildQuery`'s loop:
`value !== undefined && value !== null && value !== ""` (strict equality, so
only `undefined`, `null` and the empty string are excluded). -/
def keptVal : JsVal → Bool
  | .undefined => false
  | .val .null => false
  | .val (.str s) => if s = "" then false else true
  | .val _ => true

/-- The loop of `buildQuery` over `Object.entries(args)`: push
`key = @key` onto `where` and record the parameter for every retained entry. -/
def filterPass (args : List (String × JsVal)) : List String × List (String × JsVal) :=
  args.foldl
    (fun acc kv =>
      if keptVal kv.2 then (acc.1 ++ [kv.1 ++ " = @" ++ kv.1], acc.2 ++ [kv]) else acc)
    ([], [])

/-- The `{ query, params }` result of `buildQuery`. -/
structure BuiltQuery where
  query : String
  params : List (String × JsVal)

/-- `buildQuery(tableName, args, limit = 5)` (src/utils.ts 20-33): the WHERE
clause joins the predicates with AND and is empty when none remain; the
template interpolates the backquoted table name, the where clause and the
limit, and the parameters are returned out-of-band. -/
def buildQuery (tableName : String) (args : List (String × JsVal))
    (limit : Int := 5) : BuiltQuery :=
  let wp := filterPass args
  let whereClause :=
    if wp.1.length ≠ 0 then "WHERE " ++ String.intercalate " AND " wp.1 else ""
  let query := "SELECT * FROM `" ++ tableName ++ "` " ++ whereClause ++ " LIMIT " ++
    toString limit
  ⟨query, wp.2⟩

/-- Executable substring occurrence over character lists. -/
def occursIn (pat : List Char) : List Char → Bool
  | [] => pat.isPrefixOf []
  | c :: cs => pat.isPrefixOf (c :: cs) || occursIn pat cs

/-- Whether three consecutive backticks occur anywhere in the list. -/
def hasTriple : List Char → Bool
  | [] => false
  | c :: cs => isFenceStart (c :: cs) || hasTriple cs

/-- The record zod's permissive object check produces: the declared fields
that are present, in declaration order, with unknown fields stripped. -/
def projFields (schema : Schema) (flds : List (String × Json)) :
    List (String × Json) :=
  schema.filterMap fun sf => (flds.lookup sf.name).map fun v => (sf.name, v)

/-- Every declared field that is present in the member list passes its check. -/
def presentFieldsValid (schema : Schema) (flds : List (String × Json)) : Bool :=
  schema.all fun sf =>
    match flds.lookup sf.name with
    | some v => checkField sf.type v
    | none => true

theorem filterPass_go (args : List (String × JsVal)) (w : List String)
    (p : List (String × JsVal)) :
    args.foldl
      (fun acc kv =>
        if keptVal kv.2 then (acc.1 ++ [kv.1 ++ " = @" ++ kv.1], acc.2 ++ [kv]) else acc)
      (w, p) =
    (w ++ (args.filter fun kv => keptVal kv.2).map (fun kv => kv.1 ++ " = @" ++ kv.1),
      p ++ args.filter fun kv => keptVal kv.2) := by
  induction args generalizing w p with
  | nil => simp
  | cons kv tl ih =>
    cases h : keptVal kv.2 <;>
      simp [List.foldl_cons, h, ih, List.filter_cons]

theorem filterPass_eq (args : List (String × JsVal)) :
    filterPass args =
      ((args.filter fun kv => keptVal kv.2).map fun kv => kv.1 ++ " = @" ++ kv.1,
        args.filter fun kv => keptVal kv.2) := by
  simpa [filterPass] using filterPass_go args [] []

theorem nodup_keys_unique (args : List (String × JsVal)) (k : String) (v v' : JsVal)
    (hnd : (args.map Prod.fst).Nodup) (h1 : (k, v) ∈ args) (h2 : (k, v') ∈ args) :
    v = v' := by
  induction args with
  | nil => cases h1
  | cons kv tl ih =>
    have hnd' := hnd
    rw [List.map_cons, List.nodup_cons] at hnd'
    rcases List.mem_cons.mp h1 with h1h | h1t
    · rcases List.mem_cons.mp h2 with h2h | h2t
      · rw [← h1h] at h2h; exact (Prod.mk.injEq _ _ _ _ ▸ h2h).2.symm ▸ rfl
      · exfalso
        apply hnd'.1
        have : kv.1 = k := by rw [← h1h]
        rw [this]
        exact List.mem_map.mpr ⟨(k, v'), h2t, rfl⟩
    · rcases List.mem_cons.mp h2 with h2h | h2t
      · exfalso
        apply hnd'.1
        have : kv.1 = k := by rw [← h2h]
        rw [this]
        exact List.mem_map.mpr ⟨(k, v), h1t, rfl⟩
      · exact ih hnd'.2 h1t h2t

theorem predStr_inj (a k : String) (h : a ++ " = @" ++ a = k ++ " = @" ++ k) : a = k := by
  have hd : a.data ++ (" = @".data ++ a.data) = k.data ++ (" = @".data ++ k.data) := by
    have := congrArg String.data h
    simpa [List.append_assoc] using this
  have hlen : a.data.length = k.data.length := by
    have h2 := congrArg List.length hd
    rw [List.length_append, List.length_append, List.length_append,
      List.length_append] at h2
    omega
  have h3 := (List.append_inj hd hlen).1
  cases a; cases k; exact congrArg String.mk h3

theorem kept_congr (args args' : List (String × JsVal))
    (h : args.map (fun kv => (kv.1, keptVal kv.2)) =
      args'.map (fun kv => (kv.1, keptVal kv.2))) :
    (args.filter fun kv => keptVal kv.2).map (fun kv => kv.1 ++ " = @" ++ kv.1) =
      (args'.filter fun kv => keptVal kv.2).map (fun kv => kv.1 ++ " = @" ++ kv.1) := by
  induction args generalizing args' with
  | nil =>
    cases args' with
    | nil => rfl
    | cons kv' tl' => simp at h
  | cons kv tl ih =>
    cases args' with
    | nil => simp at h
    | cons kv' tl' =>
      rw [List.map_cons, List.map_cons, List.cons.injEq, Prod.mk.injEq] at h
      obtain ⟨⟨hk, hkept⟩, htl⟩ := h
      rw [List.filter_cons, List.filter_cons, ← hkept]
      cases hc : keptVal kv.2 with
      | false => simpa using ih tl' htl
      | true => simp [hk, ih tl' htl]

/-- C3 amended: the query template is independent of the retained filter
values (any two filter mappings with the same keys and the same kept/excluded
pattern produce byte-identical templates), and every retained entry is
delivered through the parameter mapping. -/
theorem C3_template_value_independent (t : String) (l : Int)
    (args args' : List (String × JsVal))
    (h : args.map (fun kv => (kv.1, keptVal kv.2)) =
      args'.map (fun kv => (kv.1, keptVal kv.2))) :
    (buildQuery t args l).query = (buildQuery t args' l).query ∧
    (buildQuery t args l).params = args.filter fun kv => keptVal kv.2 := by
  constructor
  · show "SELECT * FROM `" ++ t ++ "` " ++ _ ++ " LIMIT " ++ toString l =
      "SELECT * FROM `" ++ t ++ "` " ++ _ ++ " LIMIT " ++ toString l
    rw [filterPass_eq, filterPass_eq, kept_congr args args' h]
  · show (filterPass args).2 = _
    rw [filterPass_eq]

/-- C3 counterexample: a retained filter value that equals a key occurs
literally in the returned query template, so "the template contains no literal
occurrence of any retained filter value" fails as universally stated. -/
theorem C3_value_occurs_in_template :
    occursIn "SELECT".data
        (buildQuery "t" [("a", .val (.str "SELECT"))]).query.data = true ∧
    (buildQuery "t" [("a", .val (.str "SELECT"))]).params =
      [("a", .val (.str "SELECT"))] := ⟨rfl, rfl⟩

theorem C3_witness :
    ([("a", JsVal.val (.str "Japan"))].map
        (fun kv => (kv.1, keptVal kv.2)) =
      [("a", JsVal.val (.num 7))].map (fun kv => (kv.1, keptVal kv.2))) ∧
    ((buildQuery "t" [("a", .val (.str "Japan"))] 5).query =
        (buildQuery "t" [("a", .val (.num 7))] 5).query ∧
      (buildQuery "t" [("a", .val (.str "Japan"))] 5).params =
        [("a", JsVal.val (.str "Japan"))].filter fun kv => keptVal kv.2) :=
  ⟨rfl, C3_template_value_independent "t" 5 _ _ rfl⟩

/-- C2 counterexample: with the empty filter the query string is not the
claimed `SELECT * FROM t.table LIMIT 5`. -/
theorem C2_claimed_string_wrong :
    (buildQuery "t.table" []).query ≠ "SELECT * FROM t.table LIMIT 5" := by decide

/-- C2 amended: the empty filter yields the table name wrapped in backquotes
and two spaces where the WHERE clause was interpolated away, with an empty
parameter mapping. -/
theorem C2_empty_filter_query :
    (buildQuery "t.table" []).query = "SELECT * FROM `t.table`  LIMIT 5" ∧
    (buildQuery "t.table" []).params = [] := ⟨rfl, rfl⟩

/-- C4: a filter entry whose value is undefined, null or the empty string
contributes neither a predicate to the WHERE list nor a parameter. -/
theorem C4_excluded_values_absent (t : String) (l : Int)
    (args : List (String × JsVal)) (k : String) (v : JsVal)
    (hnd : (args.map Prod.fst).Nodup) (hmem : (k, v) ∈ args)
    (hexc : keptVal v = false) :
    k ∉ (buildQuery t args l).params.map Prod.fst ∧
    (k ++ " = @" ++ k) ∉ (filterPass args).1 := by
  constructor
  · intro hk
    have hp : (buildQuery t args l).params = args.filter fun kv => keptVal kv.2 := by
      show (filterPass args).2 = _
      rw [filterPass_eq]
    rw [hp] at hk
    obtain ⟨⟨k', v'⟩, hmem', hfst⟩ := List.mem_map.mp hk
    obtain ⟨hin, hkept⟩ := List.mem_filter.mp hmem'
    have hk' : k' = k := hfst
    subst hk'
    have := nodup_keys_unique args k' v v' hnd hmem hin
    rw [← this] at hkept
    rw [hexc] at hkept
    cases hkept
  · intro hk
    rw [filterPass_eq] at hk
    obtain ⟨⟨k', v'⟩, hmem', heq⟩ := List.mem_map.mp hk
    obtain ⟨hin, hkept⟩ := List.mem_filter.mp hmem'
    have hk' : k' = k := predStr_inj k' k heq
    subst hk'
    have := nodup_keys_unique args k' v v' hnd hmem hin
    rw [← this] at hkept
    rw [hexc] at hkept
    cases hkept

theorem C4_witness :
    (([("a", JsVal.val .null), ("b", JsVal.val (.str "x"))].map Prod.fst).Nodup ∧
      ("a", JsVal.val .null) ∈ [("a", JsVal.val .null), ("b", JsVal.val (.str "x"))] ∧
      keptVal (JsVal.val .null) = false) ∧
    ("a" ∉ (buildQuery "t" [("a", .val .null), ("b", .val (.str "x"))] 5).params.map Prod.fst ∧
      ("a" ++ " = @" ++ "a") ∉
        (filterPass [("a", JsVal.val .null), ("b", JsVal.val (.str "x"))]).1) :=
  ⟨⟨by decide, List.Mem.head _, rfl⟩,
    C4_excluded_values_absent "t" 5 _ "a" (JsVal.val .null) (by decide)
      (List.Mem.head _) rfl⟩

/-- C9: values that are merely falsy but not undefined, null or the empty
string (the number 0, the boolean false) are retained: their predicate is in
the WHERE list and their entry is in the parameter mapping. -/
theorem C9_zero_false_retained (t : String) (l : Int)
    (args : List (String × JsVal)) (k : String) (v : JsVal)
    (hv : v = .val (.num 0) ∨ v = .val (.bool false)) (hmem : (k, v) ∈ args) :
    (k ++ " = @" ++ k) ∈ (filterPass args).1 ∧
    (k, v) ∈ (buildQuery t args l).params := by
  have hkept : keptVal v = true := by rcases hv with rfl | rfl <;> rfl
  constructor
  · rw [filterPass_eq]
    exact List.mem_map.mpr ⟨(k, v), List.mem_filter.mpr ⟨hmem, hkept⟩, rfl⟩
  · show (k, v) ∈ (filterPass args).2
    rw [filterPass_eq]
    exact List.mem_filter.mpr ⟨hmem, hkept⟩

theorem C9_witness :
    ((JsVal.val (.num 0) = JsVal.val (.num 0) ∨
        JsVal.val (.num 0) = JsVal.val (.bool false)) ∧
      ("a", JsVal.val (.num 0)) ∈ [("a", JsVal.val (.num 0))] ∧
      ("a" ++ " = @" ++ "a") ∈ (filterPass [("a", JsVal.val (.num 0))]).1 ∧
      ("a", JsVal.val (.num 0)) ∈
        (buildQuery "t" [("a", .val (.num 0))] 5).params) := by
  refine ⟨Or.inl rfl, List.Mem.head _, ?_⟩
  exact C9_zero_false_retained "t" 5 _ "a" _ (Or.inl rfl) (List.Mem.head _)

theorem parseValue_nil (fuel : Nat) : parseValue fuel [] = none := by
  cases fuel <;> rfl

theorem parseValue_btick (fuel : Nat) (xs : List Char) :
    parseValue fuel ('`' :: xs) = none := by
  cases fuel <;> rfl

theorem jsonParse_btick (xs : List Char) : jsonParse ('`' :: xs) = none := by
  unfold jsonParse
  rw [parseValue_btick]

theorem jsonParse_nil : jsonParse [] = none := rfl

theorem dropWhile_append_cons (p : Char → Bool) (x m : List Char) (c : Char)
    (hc : p c = false) :
    (x ++ c :: m).dropWhile p = x.dropWhile p ++ c :: m := by
  induction x with
  | nil => simp [List.dropWhile_cons, hc]
  | cons a x' ih =>
    cases ha : p a <;> simp [List.dropWhile_cons, ha, ih]

theorem dropWhile_append_of_ne_nil (p : Char → Bool) (x y : List Char)
    (h : x.dropWhile p ≠ []) :
    (x ++ y).dropWhile p = x.dropWhile p ++ y := by
  induction x with
  | nil => cases h rfl
  | cons a x' ih =>
    cases ha : p a
    · simp [List.dropWhile_cons, ha]
    · rw [List.dropWhile_cons] at h
      rw [ha] at h
      simp only [List.cons_append, List.dropWhile_cons, ha]
      simpa using ih (by simpa using h)

theorem exists_dropWhile_append (p : Char → Bool) (l : List Char) :
    ∃ u, l = u ++ l.dropWhile p := by
  induction l with
  | nil => exact ⟨[], rfl⟩
  | cons c l' ih =>
    cases hc : p c
    · exact ⟨[], by simp [List.dropWhile_cons, hc]⟩
    · obtain ⟨u, hu⟩ := ih
      exact ⟨c :: u, by simp [List.dropWhile_cons, hc, ← hu]⟩

theorem jsTrim_of_all_ws (l : List Char) (h : ∀ c ∈ l, isJsWs c = true) :
    jsTrim l = [] := by
  unfold jsTrim
  rw [List.dropWhile_eq_nil_iff.mpr h]
  rfl

/-- C10: the empty text and every JavaScript-whitespace-only text extract to
the failure value, for every schema. -/
theorem C10_whitespace_only_fails (text : String) (schema : Schema)
    (hws : ∀ c ∈ text.data, isJsWs c = true) :
    extractJsonFromLLMResponse text schema = none := by
  unfold extractJsonFromLLMResponse extractJson
  rw [jsTrim_of_all_ws text.data hws]
  rfl

theorem C10_witness :
    (∀ c ∈ ("  \n\t ".data), isJsWs c = true) ∧
    extractJsonFromLLMResponse "  \n\t " OutputSchema = none :=
  ⟨by decide, C10_whitespace_only_fails "  \n\t " OutputSchema (by decide)⟩

/-- C1 counterexample: two different texts containing no parseable JSON get
the identical failure value `none`, which therefore cannot carry the original
raw text. -/
theorem C1_failure_carries_no_text :
    extractJsonFromLLMResponse "hello" OutputSchema = none ∧
    extractJsonFromLLMResponse "world" OutputSchema = none ∧
    "hello" ≠ "world" := ⟨rfl, rfl, by decide⟩

/-- C1 amended: on a text with no parseable JSON, directly or in the first
fenced block, extraction returns the bare failure value null (`none`), which
carries no payload; the raw text survives only with the caller. -/
theorem C1_no_json_returns_none (text : String) (schema : Schema)
    (hdirect : jsonParse (jsTrim text.data) = none)
    (hfenced : ∀ inner, fencedFrom (jsTrim text.data) = some inner →
      jsonParse inner = none) :
    extractJsonFromLLMResponse text schema = none := by
  unfold extractJsonFromLLMResponse extractJson directStage fencedStage
  rw [hdirect]
  simp only [Option.none_bind]
  cases hf : fencedFrom (jsTrim text.data) with
  | none => rfl
  | some inner =>
    show (jsonParse inner).bind (schemaParse schema) = none
    rw [hfenced inner hf]
    rfl

theorem C1_witness :
    (jsonParse (jsTrim ("```abc``` and ```xyz```".data)) = none ∧
      (∀ inner, fencedFrom (jsTrim ("```abc``` and ```xyz```".data)) = some inner →
        jsonParse inner = none)) ∧
    extractJsonFromLLMResponse "```abc``` and ```xyz```" OutputSchema = none := by
  refine ⟨⟨rfl, ?_⟩, ?_⟩
  · intro inner h
    have : "abc".data = inner := by
      have h2 : (some ("abc".data) : Option (List Char)) = some inner := h
      exact Option.some.inj h2
    rw [← this]
    rfl
  · exact C1_no_json_returns_none _ OutputSchema rfl
      (fun inner h => by
        have : "abc".data = inner := Option.some.inj h
        rw [← this]
        rfl)

theorem isFenceStart_cons_ne (c : Char) (l : List Char) (hc : (c == '`') = false) :
    isFenceStart (c :: l) = false := by
  match l with
  | [] => rfl
  | [_] => rfl
  | _ :: _ :: _ => simp [isFenceStart, hc]

theorem isFenceStart_append (l v : List Char) (h : isFenceStart l = true) :
    isFenceStart (l ++ v) = true := by
  match l with
  | [] => cases h
  | [_] => cases h
  | [_, _] => cases h
  | a :: b :: c :: rest => simpa [isFenceStart] using h

theorem hasTriple_append_right (u v : List Char) (h : hasTriple v = true) :
    hasTriple (u ++ v) = true := by
  induction u with
  | nil => simpa using h
  | cons c u' ih => simp [hasTriple, ih]

theorem hasTriple_append_left (u v : List Char) (h : hasTriple u = true) :
    hasTriple (u ++ v) = true := by
  induction u with
  | nil => cases h
  | cons c u' ih =>
    rw [hasTriple] at h
    rcases Bool.or_eq_true_iff.mp h with hf | ht
    · have h2 := isFenceStart_append (c :: u') v hf
      rw [List.cons_append] at h2
      simp [hasTriple, h2]
    · simp [hasTriple, ih ht]

theorem hasTriple_dropWhile (p : Char → Bool) (l : List Char)
    (h : hasTriple l = false) : hasTriple (l.dropWhile p) = false := by
  cases ht : hasTriple (l.dropWhile p)
  · rfl
  · obtain ⟨u, hu⟩ := exists_dropWhile_append p l
    rw [hu, hasTriple_append_right u _ ht] at h
    cases h

theorem hasTriple_jsTrim (l : List Char) (h : hasTriple l = false) :
    hasTriple (jsTrim l) = false := by
  unfold jsTrim
  have h1 : hasTriple (l.dropWhile isJsWs) = false := hasTriple_dropWhile _ _ h
  cases ht : hasTriple ((l.dropWhile isJsWs).reverse.dropWhile isJsWs).reverse
  · rfl
  · exfalso
    obtain ⟨u, hu⟩ := exists_dropWhile_append isJsWs (l.dropWhile isJsWs).reverse
    have hrev : l.dropWhile isJsWs =
        ((l.dropWhile isJsWs).reverse.dropWhile isJsWs).reverse ++ u.reverse := by
      have := congrArg List.reverse hu
      simpa [List.reverse_append] using this
    rw [hrev, hasTriple_append_left _ _ ht] at h1
    cases h1

theorem fencedFrom_of_no_triple (l : List Char) (h : hasTriple l = false) :
    fencedFrom l = none := by
  induction l with
  | nil => rfl
  | cons c cs ih =>
    rw [hasTriple, Bool.or_eq_false_iff] at h
    rw [fencedFrom, h.1]
    exact ih h.2
    
theorem parseFields_fails (schema : Schema) (fields : List (String × Json))
    (sf : SchemaField) (hsf : sf ∈ schema) (v : Json)
    (hv : fields.lookup sf.name = some v) (hbad : checkField sf.type v = false) :
    parseFields schema fields = none := by
  induction schema with
  | nil => cases hsf
  | cons f rest ih =>
    rcases List.mem_cons.mp hsf with rfl | htail
    · rw [parseFields, hv]
      simp [hbad]
    · rw [parseFields]
      cases hl : fields.lookup f.name with
      | none => exact ih htail
      | some w =>
        cases hc : checkField f.type w
        · simp [hc]
        · simp [hc, ih htail]

theorem parseFields_of_valid (schema : Schema) (flds : List (String × Json))
    (h : presentFieldsValid schema flds = true) :
    parseFields schema flds = some (projFields schema flds) := by
  induction schema with
  | nil => rfl
  | cons sf rest ih =>
    rw [presentFieldsValid, List.all_cons, Bool.and_eq_true] at h
    rw [parseFields, projFields, List.filterMap_cons]
    cases hl : flds.lookup sf.name with
    | none =>
      simpa [projFields] using ih h.2
    | some v =>
      have hc : checkField sf.type v = true := by
        have h1 := h.1
        rw [hl] at h1
        exact h1
      simp [hc, ih h.2, projFields]

/-- C5 amended: an object with a present schema-declared field that fails its
check is rejected as a whole, so extraction of its text fails, provided the
text contains no three-backtick run that the fenced fallback could fire on. -/
theorem C5_invalid_field_fails (s : String) (schema : Schema)
    (flds : List (String × Json)) (sf : SchemaField) (v : Json)
    (hparse : jsonParse (jsTrim s.data) = some (.obj flds))
    (hsf : sf ∈ schema) (hv : flds.lookup sf.name = some v)
    (hbad : checkField sf.type v = false)
    (hnf : hasTriple s.data = false) :
    extractJsonFromLLMResponse s schema = none := by
  unfold extractJsonFromLLMResponse extractJson directStage
  rw [hparse, Option.some_bind]
  have hsp : schemaParse schema (.obj flds) = none := by
    show (parseFields schema flds).map Json.obj = none
    rw [parseFields_fails schema flds sf hsf v hv hbad]
    rfl
  rw [hsp]
  show fencedStage (jsTrim s.data) schema = none
  unfold fencedStage
  rw [fencedFrom_of_no_triple _ (hasTriple_jsTrim _ hnf)]

theorem C5_amended_witness :
    (jsonParse (jsTrim ("\x7b\"date\":\"2024/01/01\"\x7d".data)) =
        some (.obj [("date", .str "2024/01/01")]) ∧
      (⟨"date", .fDateString⟩ : SchemaField) ∈ OutputSchema ∧
      [("date", Json.str "2024/01/01")].lookup "date" = some (.str "2024/01/01") ∧
      checkField .fDateString (.str "2024/01/01") = false ∧
      hasTriple ("\x7b\"date\":\"2024/01/01\"\x7d".data) = false) ∧
    extractJsonFromLLMResponse "\x7b\"date\":\"2024/01/01\"\x7d" OutputSchema = none :=
  ⟨⟨rfl, by decide, rfl, rfl, rfl⟩,
    C5_invalid_field_fails _ _ _ ⟨"date", .fDateString⟩ _ rfl (by decide) rfl rfl rfl⟩

/-- C5 counterexample: an object whose only invalid present field is the date,
but whose valid country_name value contains a backtick fence, extracts
successfully to the empty record through the fenced fallback, against the
claimed all-or-nothing failure. -/
theorem C5_counterexample :
    jsonParse
        (jsTrim ("\x7b\"date\":\"2024/01/01\",\"country_name\":\"```\x7b\x7d```\"\x7d".data)) =
      some (.obj [("date", .str "2024/01/01"),
        ("country_name", .str "```\x7b\x7d```")]) ∧
    checkField .fString (.str "```\x7b\x7d```") = true ∧
    checkField .fDateString (.str "2024/01/01") = false ∧
    schemaParse OutputSchema
        (.obj [("date", .str "2024/01/01"), ("country_name", .str "```\x7b\x7d```")]) =
      none ∧
    extractJsonFromLLMResponse
        "\x7b\"date\":\"2024/01/01\",\"country_name\":\"```\x7b\x7d```\"\x7d"
        OutputSchema =
      some (.obj []) :=
  ⟨rfl, rfl, rfl, rfl, rfl⟩

/-- C8: an object whose present schema-declared fields are all valid extracts
successfully whatever extra unknown fields it carries, and the record returned
is exactly the declared present fields, in declaration order. -/
theorem C8_extra_fields_ignored (s : String) (schema : Schema)
    (flds : List (String × Json))
    (hparse : jsonParse (jsTrim s.data) = some (.obj flds))
    (hvalid : presentFieldsValid schema flds = true) :
    extractJsonFromLLMResponse s schema = some (.obj (projFields schema flds)) := by
  unfold extractJsonFromLLMResponse extractJson directStage
  rw [hparse, Option.some_bind]
  have hsp : schemaParse schema (.obj flds) = some (.obj (projFields schema flds)) := by
    show (parseFields schema flds).map Json.obj = _
    rw [parseFields_of_valid schema flds hvalid]
    rfl
  rw [hsp]

theorem C8_witness :
    (jsonParse (jsTrim ("\x7b\"x\":true,\"country_name\":\"Japan\"\x7d".data)) =
        some (.obj [("x", .bool true), ("country_name", .str "Japan")]) ∧
      presentFieldsValid OutputSchema
        [("x", Json.bool true), ("country_name", Json.str "Japan")] = true) ∧
    extractJsonFromLLMResponse "\x7b\"x\":true,\"country_name\":\"Japan\"\x7d"
        OutputSchema =
      some (.obj (projFields OutputSchema
        [("x", Json.bool true), ("country_name", Json.str "Japan")])) ∧
    projFields OutputSchema [("x", Json.bool true), ("country_name", Json.str "Japan")] =
      [("country_name", Json.str "Japan")] :=
  ⟨⟨rfl, rfl⟩,
    C8_extra_fields_ignored _ OutputSchema _ rfl rfl, rfl⟩

theorem fencedFrom_append_prefix (x rest : List Char)
    (hx : ∀ c ∈ x, (c == '`') = false) :
    fencedFrom (x ++ rest) = fencedFrom rest := by
  induction x with
  | nil => rfl
  | cons c x' ih =>
    rw [List.cons_append, fencedFrom,
      isFenceStart_cons_ne c _ (hx c (.head _))]
    exact ih fun c hc => hx c (.tail _ hc)

theorem dropJsonTag_append_fence (s1 z : List Char) :
    dropJsonTag (s1 ++ '`' :: '`' :: '`' :: z) =
      dropJsonTag s1 ++ '`' :: '`' :: '`' :: z := by
  match s1 with
  | [] =>
    match z with
    | [] => rfl
    | zc :: z2 => simp [dropJsonTag]
  | [a] => simp [dropJsonTag]
  | [a, b] => simp [dropJsonTag]
  | [a, b, c] => simp [dropJsonTag]
  | a :: b :: c :: d :: rest =>
    show dropJsonTag (a :: b :: c :: d :: (rest ++ _)) = _
    by_cases h : ((a == 'j' || a == 'J') && (b == 's' || b == 'S') &&
        (c == 'o' || c == 'O') && (d == 'n' || d == 'N')) = true
    · simp [dropJsonTag, h]
    · simp [dropJsonTag, h]

theorem hasTriple_btfree_two (u : List Char) (hu : ∀ c ∈ u, (c == '`') = false) :
    hasTriple (u ++ ['`', '`']) = false := by
  induction u with
  | nil => rfl
  | cons c u' ih =>
    rw [List.cons_append, hasTriple,
      isFenceStart_cons_ne c _ (hu c (.head _))]
    simpa using ih fun c hc => hu c (.tail _ hc)

theorem isFenceStart_pad (c : Char) (w' v : List Char) :
    isFenceStart (c :: w' ++ '`' :: '`' :: '`' :: v) =
      isFenceStart (c :: w' ++ ['`', '`']) := by
  match w' with
  | [] => simp [isFenceStart]
  | [a] => simp [isFenceStart]
  | a :: b :: rest => rfl

theorem splitAtFence_append (w v : List Char)
    (h : hasTriple (w ++ ['`', '`']) = false) :
    splitAtFence (w ++ '`' :: '`' :: '`' :: v) = some (w, v) := by
  induction w with
  | nil => rfl
  | cons c w' ih =>
    rw [List.cons_append, hasTriple, Bool.or_eq_false_iff] at h
    have h1 : isFenceStart (c :: w' ++ '`' :: '`' :: '`' :: v) = false := by
      rw [isFenceStart_pad]
      exact h.1
    rw [List.cons_append, splitAtFence]
    rw [show (c :: (w' ++ '`' :: '`' :: '`' :: v)) = (c :: w' ++ '`' :: '`' :: '`' :: v)
      from rfl, h1]
    simp [ih h.2]

theorem btfree_dropWhile (p : Char → Bool) (l : List Char)
    (h : ∀ c ∈ l, (c == '`') = false) : ∀ c ∈ l.dropWhile p, (c == '`') = false :=
  fun c hc => h c ((List.dropWhile_sublist p).subset hc)

theorem btfree_dropJsonTag (l : List Char)
    (h : ∀ c ∈ l, (c == '`') = false) : ∀ c ∈ dropJsonTag l, (c == '`') = false := by
  intro c hc
  apply h
  revert hc
  match l with
  | [] => exact id
  | [a] => exact id
  | [a, b] => exact id
  | [a, b, c2] => exact id
  | a :: b :: c2 :: d :: rest =>
    rw [dropJsonTag]
    split
    · intro hc
      simp [hc]
    · exact id

theorem jsTrim_decomp (x s1 z : List Char) :
    jsTrim (x ++ '`' :: '`' :: '`' :: (s1 ++ '`' :: '`' :: '`' :: z)) =
      x.dropWhile isJsWs ++ '`' :: '`' :: '`' ::
        (s1 ++ '`' :: '`' :: '`' :: (z.reverse.dropWhile isJsWs).reverse) := by
  unfold jsTrim
  rw [dropWhile_append_cons isJsWs x _ '`' rfl]
  have h1 : (x.dropWhile isJsWs ++ '`' :: '`' :: '`' ::
      (s1 ++ '`' :: '`' :: '`' :: z)).reverse =
      z.reverse ++ '`' :: '`' :: '`' ::
        (s1.reverse ++ '`' :: '`' :: '`' :: (x.dropWhile isJsWs).reverse) := by
    simp [List.reverse_append, List.append_assoc]
  rw [h1, dropWhile_append_cons isJsWs z.reverse _ '`' rfl]
  simp [List.reverse_append, List.append_assoc]

theorem tryFenceAt_fence (s1 z : List Char)
    (hs1 : ∀ c ∈ s1, (c == '`') = false) :
    tryFenceAt (s1 ++ '`' :: '`' :: '`' :: z) =
      some ((dropJsonTag s1).dropWhile isJsWs) := by
  unfold tryFenceAt
  rw [dropJsonTag_append_fence, dropWhile_append_cons isJsWs _ _ '`' rfl,
    splitAtFence_append _ _
      (hasTriple_btfree_two _ (btfree_dropWhile _ _ (btfree_dropJsonTag _ hs1)))]
  rfl

theorem fencedFrom_at_fence (M cap : List Char) (h : tryFenceAt M = some cap) :
    fencedFrom ('`' :: '`' :: '`' :: M) = some cap := by
  rw [fencedFrom]
  have hf : isFenceStart ('`' :: '`' :: '`' :: M) = true := rfl
  rw [hf]
  simp [h]

/-- C7: when the direct stage fails, the extraction result is a function of
the first fenced block's content alone; the suffix after the first block's
closing fence, which holds any later blocks, never influences the result. -/
theorem C7_first_fence_wins (x s1 z : List Char) (schema : Schema)
    (hx : ∀ c ∈ x, (c == '`') = false) (hs1 : ∀ c ∈ s1, (c == '`') = false)
    (hdirect : directStage
      (jsTrim (x ++ '`' :: '`' :: '`' :: (s1 ++ '`' :: '`' :: '`' :: z)))
      schema = none) :
    extractJsonFromLLMResponse
        ⟨x ++ '`' :: '`' :: '`' :: (s1 ++ '`' :: '`' :: '`' :: z)⟩ schema =
      (jsonParse ((dropJsonTag s1).dropWhile isJsWs)).bind (schemaParse schema) := by
  unfold extractJsonFromLLMResponse extractJson
  rw [show (⟨x ++ '`' :: '`' :: '`' :: (s1 ++ '`' :: '`' :: '`' :: z)⟩ : String).data =
    x ++ '`' :: '`' :: '`' :: (s1 ++ '`' :: '`' :: '`' :: z) from rfl]
  rw [hdirect]
  show fencedStage (jsTrim (x ++ '`' :: '`' :: '`' :: (s1 ++ '`' :: '`' :: '`' :: z)))
    schema = _
  unfold fencedStage
  rw [jsTrim_decomp, fencedFrom_append_prefix _ _ (btfree_dropWhile _ x hx),
    fencedFrom_at_fence _ _ (tryFenceAt_fence s1 _ hs1)]

theorem C7_witness :
    ((∀ c ∈ ("Sure! ".data), (c == '`') = false) ∧
      (∀ c ∈ (" not json ".data), (c == '`') = false) ∧
      directStage
        (jsTrim ("Sure! ".data ++ '`' :: '`' :: '`' ::
          (" not json ".data ++ '`' :: '`' :: '`' ::
            ("\n```json\n\x7b\"country_name\":\"Japan\"\x7d\n```".data))))
        OutputSchema = none) ∧
    extractJsonFromLLMResponse
        ⟨"Sure! ".data ++ '`' :: '`' :: '`' ::
          (" not json ".data ++ '`' :: '`' :: '`' ::
            ("\n```json\n\x7b\"country_name\":\"Japan\"\x7d\n```".data))⟩ OutputSchema =
      (jsonParse ((dropJsonTag " not json ".data).dropWhile isJsWs)).bind
        (schemaParse OutputSchema) ∧
    (jsonParse ((dropJsonTag " not json ".data).dropWhile isJsWs)).bind
        (schemaParse OutputSchema) = none :=
  ⟨⟨by decide, by decide, rfl⟩,
    C7_first_fence_wins _ _ _ OutputSchema (by decide) (by decide) rfl, rfl⟩

theorem parseElems_nil (fuel : Nat) : parseElems fuel [] = none := by
  cases fuel with
  | zero => rfl
  | succ f => rw [parseElems, parseValue_nil]

theorem parseMembers_nil (fuel : Nat) : parseMembers fuel [] = none := by
  cases fuel <;> rfl

theorem isPrefixOf_append_ext (l : List Char) :
    ∀ cs ext : List Char, l.isPrefixOf cs = true →
      l.isPrefixOf (cs ++ ext) = true ∧
        (cs ++ ext).drop l.length = cs.drop l.length ++ ext := by
  induction l with
  | nil => intro cs ext _; simp
  | cons a l' ih =>
    intro cs ext h
    cases cs with
    | nil => simp [List.isPrefixOf] at h
    | cons b cs' =>
      rw [List.isPrefixOf, Bool.and_eq_true] at h
      have := ih cs' ext h.2
      refine ⟨?_, ?_⟩
      · rw [List.cons_append, List.isPrefixOf, Bool.and_eq_true]
        exact ⟨h.1, this.1⟩
      · simpa using this.2

theorem expectLit_append (lit : List Char) (j : Json) (cs ext : List Char)
    (j' : Json) (r : List Char) (h : expectLit lit j cs = some (j', r)) :
    expectLit lit j (cs ++ ext) = some (j', r ++ ext) := by
  unfold expectLit at h ⊢
  cases hp : lit.isPrefixOf cs with
  | false => rw [hp] at h; cases h
  | true =>
    rw [hp] at h
    obtain ⟨h1, h2⟩ := isPrefixOf_append_ext lit cs ext hp
    have h3 := Option.some.inj h
    obtain ⟨rfl, rfl⟩ : j = j' ∧ cs.drop lit.length = r :=
      ⟨congrArg Prod.fst h3, congrArg Prod.snd h3⟩
    rw [h1, h2]
    simp

theorem takeWhile_digits_append_nl (cs : List Char) :
    (cs ++ ['\n']).takeWhile Char.isDigit = cs.takeWhile Char.isDigit := by
  induction cs with
  | nil => rfl
  | cons c cs' ih =>
    cases hc : c.isDigit <;> simp [List.takeWhile_cons, hc, ih]

theorem dropWhile_digits_append_nl (cs : List Char) :
    (cs ++ ['\n']).dropWhile Char.isDigit = cs.dropWhile Char.isDigit ++ ['\n'] := by
  induction cs with
  | nil => rfl
  | cons c cs' ih =>
    cases hc : c.isDigit <;> simp [List.dropWhile_cons, hc, ih]

theorem spanDigits_append_nl (cs : List Char) :
    spanDigits (cs ++ ['\n']) = ((spanDigits cs).1, (spanDigits cs).2 ++ ['\n']) := by
  unfold spanDigits
  rw [takeWhile_digits_append_nl, dropWhile_digits_append_nl]


theorem parseExpPart_append_nl (cs : List Char) (e : Int) (r : List Char)
    (h : parseExpPart cs = some (e, r)) :
    parseExpPart (cs ++ ['\n']) = some (e, r ++ ['\n']) := by
  unfold parseExpPart at h ⊢
  cases cs with
  | nil => simp [spanDigits] at h
  | cons c cs' =>
    simp only [List.cons_append]
    by_cases hplus : c == '+' <;> by_cases hminus : c == '-' <;>
      simp only [hplus, hminus, if_true, if_false, Bool.false_eq_true] at h ⊢ <;>
      [skip; skip; skip; skip]
    all_goals {
      first
      | (cases hs : spanDigits cs' with
          | mk ds rest =>
            rw [hs] at h
            cases ds with
            | nil => simp at h
            | cons d ds' =>
              rw [spanDigits_append_nl, hs]
              simpa using h)
      | (cases hs : spanDigits (c :: cs') with
          | mk ds rest =>
            rw [hs] at h
            cases ds with
            | nil => simp at h
            | cons d ds' =>
              rw [show (c :: (cs' ++ ['\n'])) = (c :: cs') ++ ['\n'] from rfl,
                spanDigits_append_nl, hs]
              simpa using h)
    }

theorem pnExp_append_nl (neg : Bool) (i fval flen : Nat) (rest2 : List Char)
    (j : Json) (r : List Char) (h : pnExp neg i fval flen rest2 = some (j, r)) :
    pnExp neg i fval flen (rest2 ++ ['\n']) = some (j, r ++ ['\n']) := by
  unfold pnExp at h ⊢
  cases rest2 with
  | nil =>
    have h2 : (Json.num (mkNum neg i fval flen 0), ([] : List Char)) = (j, r) :=
      Option.some.inj h
    rw [Prod.mk.injEq] at h2
    obtain ⟨rfl, rfl⟩ := h2
    rfl
  | cons c2 r3 =>
    simp only [List.cons_append] at h ⊢
    by_cases he : (c2 == 'e' || c2 == 'E') = true
    · simp only [he, if_true] at h ⊢
      cases hp : parseExpPart r3 with
      | none => rw [hp] at h; cases h
      | some p =>
        rw [hp] at h
        rw [parseExpPart_append_nl r3 p.1 p.2 (by rw [hp])]
        simpa using h
    · simp only [he, if_false, Bool.false_eq_true] at h ⊢
      have h2 : (Json.num (mkNum neg i fval flen 0), c2 :: r3) = (j, r) :=
        Option.some.inj h
      rw [Prod.mk.injEq] at h2
      obtain ⟨rfl, rfl⟩ := h2
      rfl

theorem pnTail_append_nl (neg : Bool) (i : Nat) (t : List Char)
    (j : Json) (r : List Char) (h : pnTail neg i t = some (j, r)) :
    pnTail neg i (t ++ ['\n']) = some (j, r ++ ['\n']) := by
  unfold pnTail at h ⊢
  cases t with
  | nil =>
    simp only [List.nil_append]
    exact pnExp_append_nl neg i 0 0 [] j r h
  | cons c2 r2 =>
    simp only [List.cons_append] at h ⊢
    by_cases hdot : (c2 == '.') = true
    · simp only [hdot, if_true] at h ⊢
      cases hs : spanDigits r2 with
      | mk ds rest2 =>
        rw [hs] at h
        cases ds with
        | nil => simp at h
        | cons d ds' =>
          rw [spanDigits_append_nl, hs]
          simp only at h ⊢
          exact pnExp_append_nl neg i _ _ rest2 j r h
    · simp only [hdot, if_false, Bool.false_eq_true] at h ⊢
      exact pnExp_append_nl neg i 0 0 (c2 :: r2) j r h

theorem parseNumber_append_nl (cs : List Char) (j : Json) (r : List Char)
    (h : parseNumber cs = some (j, r)) :
    parseNumber (cs ++ ['\n']) = some (j, r ++ ['\n']) := by
  unfold parseNumber at h ⊢
  cases cs with
  | nil => simp at h
  | cons c0 cs0 =>
    simp only [List.cons_append] at h ⊢
    by_cases hneg : (c0 == '-') = true
    · simp only [hneg, if_true] at h ⊢
      cases cs0 with
      | nil => simp at h
      | cons c r1 =>
        simp only [List.cons_append] at h ⊢
        by_cases hd : (!c.isDigit) = true
        · rw [if_pos hd] at h; cases h
        · rw [if_neg hd] at h ⊢
          by_cases hz : (c == '0') = true
          · rw [if_pos hz] at h ⊢
            exact pnTail_append_nl _ _ _ _ _ h
          · rw [if_neg hz] at h ⊢
            rw [show (c :: (r1 ++ ['\n'])) = (c :: r1) ++ ['\n'] from rfl,
              spanDigits_append_nl]
            exact pnTail_append_nl _ _ _ _ _ h
    · simp only [hneg, if_false, Bool.false_eq_true] at h ⊢
      by_cases hd : (!c0.isDigit) = true
      · rw [if_pos hd] at h; cases h
      · rw [if_neg hd] at h ⊢
        by_cases hz : (c0 == '0') = true
        · rw [if_pos hz] at h ⊢
          exact pnTail_append_nl _ _ _ _ _ h
        · rw [if_neg hz] at h ⊢
          rw [show (c0 :: (cs0 ++ ['\n'])) = (c0 :: cs0) ++ ['\n'] from rfl,
            spanDigits_append_nl]
          exact pnTail_append_nl _ _ _ _ _ h



theorem decodeUEsc_append (rest2 : List Char) (ch : Char) (r3 : List Char)
    (h : decodeUEsc rest2 = some (ch, r3)) :
    decodeUEsc (rest2 ++ ['\n']) = some (ch, r3 ++ ['\n']) := by
  unfold decodeUEsc at h ⊢
  rcases rest2 with _ | ⟨a, _ | ⟨b, _ | ⟨c2, _ | ⟨d, rest3⟩⟩⟩⟩
  · exact Option.noConfusion h
  · exact Option.noConfusion h
  · exact Option.noConfusion h
  · exact Option.noConfusion h
  · simp only [List.cons_append]
    dsimp only at h ⊢
    revert h
    cases hha : hexVal a with
    | none => intro h; exact Option.noConfusion h
    | some ha =>
    cases hhb : hexVal b with
    | none => intro h; exact Option.noConfusion h
    | some hb =>
    cases hhc : hexVal c2 with
    | none => intro h; exact Option.noConfusion h
    | some hc =>
    cases hhd : hexVal d with
    | none => intro h; exact Option.noConfusion h
    | some hd =>
    intro h
    dsimp only at h ⊢
    by_cases hhi : (0xD800 ≤ ((ha * 16 + hb) * 16 + hc) * 16 + hd &&
        ((ha * 16 + hb) * 16 + hc) * 16 + hd ≤ 0xDBFF) = true
    · rw [if_pos hhi] at h ⊢
      rcases rest3 with _ | ⟨b1, _ | ⟨b2, _ | ⟨e1, _ | ⟨f1, _ | ⟨g1, _ | ⟨h1, rest4⟩⟩⟩⟩⟩⟩
      · exact Option.noConfusion h
      · exact Option.noConfusion h
      · exact Option.noConfusion h
      · exact Option.noConfusion h
      · exact Option.noConfusion h
      · exact Option.noConfusion h
      · simp only [List.cons_append] at h ⊢
        by_cases hbu : (b1 == '\\' && b2 == 'u') = true
        · rw [if_pos hbu] at h ⊢
          revert h
          cases hhe : hexVal e1 with
          | none => intro h; exact Option.noConfusion h
          | some he =>
          cases hhf : hexVal f1 with
          | none => intro h; exact Option.noConfusion h
          | some hf =>
          cases hhg : hexVal g1 with
          | none => intro h; exact Option.noConfusion h
          | some hg =>
          cases hhh : hexVal h1 with
          | none => intro h; exact Option.noConfusion h
          | some hh =>
          intro h
          dsimp only at h ⊢
          by_cases hlo : (0xDC00 ≤ ((he * 16 + hf) * 16 + hg) * 16 + hh &&
              ((he * 16 + hf) * 16 + hg) * 16 + hh ≤ 0xDFFF) = true
          · rw [if_pos hlo] at h ⊢
            have h2 := Option.some.inj h
            rw [Prod.mk.injEq] at h2
            obtain ⟨rfl, rfl⟩ := h2
            rfl
          · rw [if_neg hlo] at h
            exact Option.noConfusion h
        · rw [if_neg hbu] at h
          exact Option.noConfusion h
    · rw [if_neg hhi] at h ⊢
      by_cases hlo2 : (0xDC00 ≤ ((ha * 16 + hb) * 16 + hc) * 16 + hd &&
          ((ha * 16 + hb) * 16 + hc) * 16 + hd ≤ 0xDFFF) = true
      · rw [if_pos hlo2] at h
        exact Option.noConfusion h
      · rw [if_neg hlo2] at h ⊢
        have h2 := Option.some.inj h
        rw [Prod.mk.injEq] at h2
        obtain ⟨rfl, rfl⟩ := h2
        rfl

theorem parseStringAux_none_nil (fuel : Nat) (acc : List Char) :
    parseStringAux fuel acc [] = none := by
  cases fuel with
  | zero => rw [parseStringAux.eq_1]
  | succ f => rw [parseStringAux.eq_2 _ _ (by omega)]

theorem parseStringAux_append_nl (fuel : Nat) :
    ∀ (fuel' : Nat), fuel ≤ fuel' → ∀ (acc cs : List Char) (s : String) (r : List Char),
      parseStringAux fuel acc cs = some (s, r) →
      parseStringAux fuel' acc (cs ++ ['\n']) = some (s, r ++ ['\n']) := by
  induction fuel with
  | zero =>
    intro _ _ _ cs _ _ h
    rw [parseStringAux.eq_1] at h
    exact Option.noConfusion h
  | succ fuel ih =>
    intro fuel' hle acc cs s r h
    obtain ⟨f2, rfl⟩ : ∃ f2, fuel' = f2 + 1 := ⟨fuel' - 1, by omega⟩
    have hle2 : fuel ≤ f2 := by omega
    cases cs with
    | nil =>
      rw [parseStringAux_none_nil] at h
      exact Option.noConfusion h
    | cons c rest =>
      cases rest with
      | nil =>
        rw [parseStringAux.eq_3] at h
        show parseStringAux (f2 + 1) acc (c :: '\n' :: []) = some (s, r ++ ['\n'])
        rw [parseStringAux.eq_4]
        by_cases hq : (c == '"') = true
        · rw [if_pos hq] at h ⊢
          have h2 : (String.mk acc.reverse, ([] : List Char)) = (s, r) := Option.some.inj h
          rw [Prod.mk.injEq] at h2
          obtain ⟨rfl, rfl⟩ := h2
          rfl
        · rw [if_neg hq] at h ⊢
          by_cases hbs : (c == '\\') = true
          · rw [if_pos hbs] at h
            exact Option.noConfusion h
          · rw [if_neg hbs] at h ⊢
            by_cases h32 : c.toNat < 32
            · rw [if_pos h32] at h
              exact Option.noConfusion h
            · rw [if_neg h32] at h
              rw [parseStringAux_none_nil] at h
              exact Option.noConfusion h
      | cons e rest2 =>
        rw [parseStringAux.eq_4] at h
        show parseStringAux (f2 + 1) acc (c :: e :: (rest2 ++ ['\n'])) = some (s, r ++ ['\n'])
        rw [parseStringAux.eq_4]
        by_cases hq : (c == '"') = true
        · rw [if_pos hq] at h ⊢
          have h2 : (String.mk acc.reverse, e :: rest2) = (s, r) := Option.some.inj h
          rw [Prod.mk.injEq] at h2
          obtain ⟨rfl, rfl⟩ := h2
          rfl
        · rw [if_neg hq] at h ⊢
          by_cases hbs : (c == '\\') = true
          · rw [if_pos hbs] at h ⊢
            by_cases hu : (e == 'u') = true
            · rw [if_pos hu] at h ⊢
              cases hde : decodeUEsc rest2 with
              | none => rw [hde] at h; exact Option.noConfusion h
              | some p =>
                rw [hde] at h
                rw [decodeUEsc_append rest2 p.1 p.2 (by rw [hde])]
                dsimp only at h ⊢
                exact ih f2 hle2 _ _ _ _ h
            · rw [if_neg hu] at h ⊢
              cases hec : escChar e with
              | none => rw [hec] at h; exact Option.noConfusion h
              | some ch =>
                rw [hec] at h
                dsimp only at h ⊢
                exact ih f2 hle2 _ _ _ _ h
          · rw [if_neg hbs] at h ⊢
            by_cases h32 : c.toNat < 32
            · rw [if_pos h32] at h
              exact Option.noConfusion h
            · rw [if_neg h32] at h ⊢
              exact ih f2 hle2 _ _ _ _ h

theorem jsonSkipWs_append_cons (cs ext : List Char) (c : Char) (cr : List Char)
    (h : jsonSkipWs cs = c :: cr) : jsonSkipWs (cs ++ ext) = c :: (cr ++ ext) := by
  unfold jsonSkipWs at h ⊢
  rw [dropWhile_append_of_ne_nil _ _ _ (by rw [h]; simp), h]
  rfl

theorem parse_append_nl (fuel : Nat) :
    (∀ (cs : List Char) (j : Json) (r : List Char) (fuel' : Nat), fuel ≤ fuel' →
      parseValue fuel cs = some (j, r) →
      parseValue fuel' (cs ++ ['\n']) = some (j, r ++ ['\n'])) ∧
    (∀ (cs : List Char) (vs : List Json) (r : List Char) (fuel' : Nat), fuel ≤ fuel' →
      parseElems fuel cs = some (vs, r) →
      parseElems fuel' (cs ++ ['\n']) = some (vs, r ++ ['\n'])) ∧
    (∀ (cs : List Char) (ms : List (String × Json)) (r : List Char) (fuel' : Nat),
      fuel ≤ fuel' →
      parseMembers fuel cs = some (ms, r) →
      parseMembers fuel' (cs ++ ['\n']) = some (ms, r ++ ['\n'])) := by
  induction fuel with
  | zero =>
    refine ⟨fun cs j r f' _ h => ?_, fun cs vs r f' _ h => ?_, fun cs ms r f' _ h => ?_⟩
    · rw [parseValue.eq_1] at h; exact Option.noConfusion h
    · rw [parseElems.eq_1] at h; exact Option.noConfusion h
    · rw [parseMembers.eq_1] at h; exact Option.noConfusion h
  | succ fuel ih =>
    obtain ⟨ihV, ihE, ihM⟩ := ih
    refine ⟨?_, ?_, ?_⟩
    · intro cs j r fuel' hle h
      obtain ⟨f2, rfl⟩ : ∃ f2, fuel' = f2 + 1 := ⟨fuel' - 1, by omega⟩
      have hle2 : fuel ≤ f2 := by omega
      rw [parseValue.eq_2] at h
      rw [parseValue.eq_2]
      cases hws : jsonSkipWs cs with
      | nil => rw [hws] at h; exact Option.noConfusion h
      | cons c cr =>
        rw [hws] at h
        rw [jsonSkipWs_append_cons cs ['\n'] c cr hws]
        dsimp only at h ⊢
        by_cases hn : (c == 'n') = true
        · rw [if_pos hn] at h ⊢
          exact expectLit_append _ _ _ _ _ _ h
        · rw [if_neg hn] at h ⊢
          by_cases ht : (c == 't') = true
          · rw [if_pos ht] at h ⊢
            exact expectLit_append _ _ _ _ _ _ h
          · rw [if_neg ht] at h ⊢
            by_cases hf : (c == 'f') = true
            · rw [if_pos hf] at h ⊢
              exact expectLit_append _ _ _ _ _ _ h
            · rw [if_neg hf] at h ⊢
              by_cases hqt : (c == '"') = true
              · rw [if_pos hqt] at h ⊢
                cases hps : parseStringAux (cr.length + 1) [] cr with
                | none => rw [hps] at h; exact Option.noConfusion h
                | some p =>
                  rw [hps] at h
                  rw [parseStringAux_append_nl (cr.length + 1) ((cr ++ ['\n']).length + 1)
                    (by simp) [] cr p.1 p.2 (by rw [hps])]
                  simp only [Option.map_some'] at h ⊢
                  have h2 := Option.some.inj h
                  rw [Prod.mk.injEq] at h2
                  obtain ⟨rfl, rfl⟩ := h2
                  rfl
              · rw [if_neg hqt] at h ⊢
                by_cases hbr : (c == '[') = true
                · rw [if_pos hbr] at h ⊢
                  cases hws2 : jsonSkipWs cr with
                  | nil => rw [hws2] at h; exact Option.noConfusion h
                  | cons c2 r2 =>
                    rw [hws2] at h
                    rw [jsonSkipWs_append_cons cr ['\n'] c2 r2 hws2]
                    dsimp only at h ⊢
                    by_cases hcb : (c2 == ']') = true
                    · rw [if_pos hcb] at h ⊢
                      have h2 := Option.some.inj h
                      rw [Prod.mk.injEq] at h2
                      obtain ⟨rfl, rfl⟩ := h2
                      rfl
                    · rw [if_neg hcb] at h ⊢
                      cases hpe : parseElems fuel (c2 :: r2) with
                      | none => rw [hpe] at h; exact Option.noConfusion h
                      | some p =>
                        rw [hpe] at h
                        rw [show (c2 :: (r2 ++ ['\n'])) = (c2 :: r2) ++ ['\n'] from rfl,
                          ihE (c2 :: r2) p.1 p.2 f2 hle2 (by rw [hpe])]
                        simp only [Option.map_some'] at h ⊢
                        have h2 := Option.some.inj h
                        rw [Prod.mk.injEq] at h2
                        obtain ⟨rfl, rfl⟩ := h2
                        rfl
                · rw [if_neg hbr] at h ⊢
                  by_cases hbc : (c == '{') = true
                  · rw [if_pos hbc] at h ⊢
                    cases hws2 : jsonSkipWs cr with
                    | nil => rw [hws2] at h; exact Option.noConfusion h
                    | cons c2 r2 =>
                      rw [hws2] at h
                      rw [jsonSkipWs_append_cons cr ['\n'] c2 r2 hws2]
                      dsimp only at h ⊢
                      by_cases hcb : (c2 == '}') = true
                      · rw [if_pos hcb] at h ⊢
                        have h2 := Option.some.inj h
                        rw [Prod.mk.injEq] at h2
                        obtain ⟨rfl, rfl⟩ := h2
                        rfl
                      · rw [if_neg hcb] at h ⊢
                        cases hpm : parseMembers fuel (c2 :: r2) with
                        | none => rw [hpm] at h; exact Option.noConfusion h
                        | some p =>
                          rw [hpm] at h
                          rw [show (c2 :: (r2 ++ ['\n'])) = (c2 :: r2) ++ ['\n'] from rfl,
                            ihM (c2 :: r2) p.1 p.2 f2 hle2 (by rw [hpm])]
                          simp only [Option.map_some'] at h ⊢
                          have h2 := Option.some.inj h
                          rw [Prod.mk.injEq] at h2
                          obtain ⟨rfl, rfl⟩ := h2
                          rfl
                  · rw [if_neg hbc] at h ⊢
                    by_cases hnum : (c == '-' || c.isDigit) = true
                    · rw [if_pos hnum] at h ⊢
                      rw [show (c :: (cr ++ ['\n'])) = (c :: cr) ++ ['\n'] from rfl]
                      exact parseNumber_append_nl _ _ _ h
                    · rw [if_neg hnum] at h
                      exact Option.noConfusion h
    · intro cs vs r fuel' hle h
      obtain ⟨f2, rfl⟩ : ∃ f2, fuel' = f2 + 1 := ⟨fuel' - 1, by omega⟩
      have hle2 : fuel ≤ f2 := by omega
      rw [parseElems.eq_2] at h
      rw [parseElems.eq_2]
      cases hpv : parseValue fuel cs with
      | none => rw [hpv] at h; exact Option.noConfusion h
      | some p =>
        obtain ⟨v, r0⟩ := p
        rw [hpv] at h
        rw [ihV cs v r0 f2 hle2 (by rw [hpv])]
        dsimp only at h ⊢
        cases hws : jsonSkipWs r0 with
        | nil => rw [hws] at h; exact Option.noConfusion h
        | cons c2 r2 =>
          rw [hws] at h
          rw [jsonSkipWs_append_cons r0 ['\n'] c2 r2 hws]
          dsimp only at h ⊢
          by_cases hc : (c2 == ',') = true
          · rw [if_pos hc] at h ⊢
            cases hpe : parseElems fuel r2 with
            | none => rw [hpe] at h; exact Option.noConfusion h
            | some q =>
              rw [hpe] at h
              rw [ihE r2 q.1 q.2 f2 hle2 (by rw [hpe])]
              simp only [Option.map_some'] at h ⊢
              have h2 := Option.some.inj h
              rw [Prod.mk.injEq] at h2
              obtain ⟨rfl, rfl⟩ := h2
              rfl
          · rw [if_neg hc] at h ⊢
            by_cases hcb : (c2 == ']') = true
            · rw [if_pos hcb] at h ⊢
              have h2 := Option.some.inj h
              rw [Prod.mk.injEq] at h2
              obtain ⟨rfl, rfl⟩ := h2
              rfl
            · rw [if_neg hcb] at h
              exact Option.noConfusion h
    · intro cs ms r fuel' hle h
      obtain ⟨f2, rfl⟩ : ∃ f2, fuel' = f2 + 1 := ⟨fuel' - 1, by omega⟩
      have hle2 : fuel ≤ f2 := by omega
      rw [parseMembers.eq_2] at h
      rw [parseMembers.eq_2]
      cases hws : jsonSkipWs cs with
      | nil => rw [hws] at h; exact Option.noConfusion h
      | cons c0 r =>
        rw [hws] at h
        rw [jsonSkipWs_append_cons cs ['\n'] c0 r hws]
        dsimp only at h ⊢
        by_cases hq : (c0 == '"') = true
        · rw [if_pos hq] at h ⊢
          cases hps : parseStringAux (r.length + 1) [] r with
          | none => rw [hps] at h; exact Option.noConfusion h
          | some p =>
            obtain ⟨k, r1⟩ := p
            rw [hps] at h
            rw [parseStringAux_append_nl (r.length + 1) ((r ++ ['\n']).length + 1)
              (by simp) [] r k r1 (by rw [hps])]
            dsimp only at h ⊢
            cases hws1 : jsonSkipWs r1 with
            | nil => rw [hws1] at h; exact Option.noConfusion h
            | cons c1 r2 =>
              rw [hws1] at h
              rw [jsonSkipWs_append_cons r1 ['\n'] c1 r2 hws1]
              dsimp only at h ⊢
              by_cases hcol : (c1 == ':') = true
              · rw [if_pos hcol] at h ⊢
                cases hpv : parseValue fuel r2 with
                | none => rw [hpv] at h; exact Option.noConfusion h
                | some pv =>
                  obtain ⟨v, r3⟩ := pv
                  rw [hpv] at h
                  rw [ihV r2 v r3 f2 hle2 (by rw [hpv])]
                  dsimp only at h ⊢
                  cases hws3 : jsonSkipWs r3 with
                  | nil => rw [hws3] at h; exact Option.noConfusion h
                  | cons c3 r4 =>
                    rw [hws3] at h
                    rw [jsonSkipWs_append_cons r3 ['\n'] c3 r4 hws3]
                    dsimp only at h ⊢
                    by_cases hcm : (c3 == ',') = true
                    · rw [if_pos hcm] at h ⊢
                      cases hpm : parseMembers fuel r4 with
                      | none => rw [hpm] at h; exact Option.noConfusion h
                      | some q =>
                        rw [hpm] at h
                        rw [ihM r4 q.1 q.2 f2 hle2 (by rw [hpm])]
                        simp only [Option.map_some'] at h ⊢
                        have h2 := Option.some.inj h
                        rw [Prod.mk.injEq] at h2
                        obtain ⟨rfl, rfl⟩ := h2
                        rfl
                    · rw [if_neg hcm] at h ⊢
                      by_cases hcb : (c3 == '}') = true
                      · rw [if_pos hcb] at h ⊢
                        have h2 := Option.some.inj h
                        rw [Prod.mk.injEq] at h2
                        obtain ⟨rfl, rfl⟩ := h2
                        rfl
                      · rw [if_neg hcb] at h
                        exact Option.noConfusion h
              · rw [if_neg hcol] at h
                exact Option.noConfusion h
        · rw [if_neg hq] at h
          exact Option.noConfusion h

theorem jsonParse_append_nl (cs : List Char) (j : Json)
    (h : jsonParse cs = some j) : jsonParse (cs ++ ['\n']) = some j := by
  unfold jsonParse at h ⊢
  cases hpv : parseValue (2 * cs.length + 2) cs with
  | none => rw [hpv] at h; exact Option.noConfusion h
  | some p =>
    obtain ⟨v, rest⟩ := p
    rw [hpv] at h
    have hfe : parseValue (2 * (cs ++ ['\n']).length + 2) (cs ++ ['\n']) =
        some (v, rest ++ ['\n']) :=
      (parse_append_nl (2 * cs.length + 2)).1 cs v rest _
        (by simp only [List.length_append, List.length_cons, List.length_nil]; omega)
        (by rw [hpv])
    rw [hfe]
    dsimp only at h ⊢
    by_cases hws : jsonSkipWs rest = []
    · rw [if_pos hws] at h
      have hall : ∀ c ∈ rest, isJsonWs c = true := by
        unfold jsonSkipWs at hws
        exact List.dropWhile_eq_nil_iff.mp hws
      have hws2 : jsonSkipWs (rest ++ ['\n']) = [] := by
        unfold jsonSkipWs
        rw [List.dropWhile_eq_nil_iff]
        intro c hc
        rcases List.mem_append.mp hc with hc1 | hc2
        · exact hall c hc1
        · rw [List.mem_singleton.mp hc2]; rfl
      rw [if_pos hws2]
      exact h
    · rw [if_neg hws] at h
      exact Option.noConfusion h

theorem dropWhile_length_le (p : Char → Bool) (l : List Char) :
    (l.dropWhile p).length ≤ l.length := by
  induction l with
  | nil => simp
  | cons c l' ih =>
    rw [List.dropWhile_cons]
    cases hc : p c
    · simp
    · simp only [if_pos rfl]
      exact Nat.le_succ_of_le ih

theorem jsTrim_btick (xs : List Char) :
    jsTrim ('`' :: (xs ++ ['`'])) = '`' :: (xs ++ ['`']) := by
  unfold jsTrim
  rw [List.dropWhile_cons, if_neg (by decide)]
  have h2 : ('`' :: (xs ++ ['`'])).reverse = '`' :: (xs.reverse ++ ['`']) := by simp
  rw [h2, List.dropWhile_cons, if_neg (by decide)]
  simp

theorem dropWhile_append_self (p : Char → Bool) (xs ys : List Char)
    (hx : xs.dropWhile p = xs) (hne : xs ≠ []) :
    (xs ++ ys).dropWhile p = xs ++ ys := by
  cases xs with
  | nil => cases hne rfl
  | cons c x' =>
    have hc : p c = false := by
      cases hpc : p c
      · rfl
      · rw [List.dropWhile_cons, if_pos hpc] at hx
        have := dropWhile_length_le p x'
        have h2 := congrArg List.length hx
        simp at h2
        omega
    rw [List.cons_append, List.dropWhile_cons, if_neg (by rw [hc]; simp)]

theorem dropJsonTag_not_j (c : Char) (l : List Char)
    (hc : (c == 'j') = false) (hC : (c == 'J') = false) :
    dropJsonTag (c :: l) = c :: l := by
  match l with
  | [] => rfl
  | [a] => rfl
  | [a, b] => rfl
  | a :: b :: c2 :: rest => simp [dropJsonTag, hc, hC]

theorem hasTriple_append_mid (u : List Char) (a : Char) (t : List Char)
    (hu : hasTriple u = false) (ha : (a == '`') = false)
    (ht : hasTriple t = false) :
    hasTriple (u ++ a :: t) = false := by
  induction u with
  | nil =>
    rw [List.nil_append, hasTriple, isFenceStart_cons_ne a t ha]
    simpa using ht
  | cons c u' ih =>
    rw [hasTriple, Bool.or_eq_false_iff] at hu
    rw [List.cons_append, hasTriple, Bool.or_eq_false_iff]
    refine ⟨?_, ih hu.2⟩
    have h1 := hu.1
    match u' with
    | [] =>
      cases t with
      | nil => rfl
      | cons x t' => simp [isFenceStart, ha]
    | [b] => simp [isFenceStart, ha]
    | b :: b2 :: u'' =>
      exact h1

/-- C6 amended: a text whose parse is schema-valid extracts through a fenced
wrapper, with or without the json language tag, provided the text contains no
three-backtick run (which would truncate the lazy capture) and no leading
whitespace. -/
theorem C6_fenced_wrap_extracts (s : String) (schema : Schema) (O rcd : Json)
    (hparse : jsonParse s.data = some O)
    (hvalid : schemaParse schema O = some rcd)
    (hnt : hasTriple s.data = false)
    (hlead : s.data.dropWhile isJsWs = s.data) :
    extractJsonFromLLMResponse ("```json\n" ++ s ++ "\n```") schema = some rcd ∧
    extractJsonFromLLMResponse ("```\n" ++ s ++ "\n```") schema = some rcd := by
  have hD : s.data ≠ [] := by
    intro he
    rw [he] at hparse
    exact Option.noConfusion hparse
  have hcap : jsonParse (s.data ++ ['\n']) = some O := jsonParse_append_nl _ _ hparse
  have htrip : hasTriple ((s.data ++ ['\n']) ++ ['`', '`']) = false := by
    rw [List.append_assoc]
    exact hasTriple_append_mid s.data '\n' ['`', '`'] hnt rfl rfl
  have hdw : (s.data ++ '\n' :: '`' :: '`' :: '`' :: []).dropWhile isJsWs =
      s.data ++ '\n' :: '`' :: '`' :: '`' :: [] :=
    dropWhile_append_self isJsWs s.data _ hlead hD
  have hsplit : splitAtFence (s.data ++ '\n' :: '`' :: '`' :: '`' :: []) =
      some (s.data ++ ['\n'], []) := by
    have hm : s.data ++ '\n' :: '`' :: '`' :: '`' :: [] =
        (s.data ++ ['\n']) ++ '`' :: '`' :: '`' :: [] := by simp
    rw [hm]
    exact splitAtFence_append _ [] htrip
  constructor
  · have hdata : ("```json\n" ++ s ++ "\n```").data =
        '`' :: (('`' :: '`' :: 'j' :: 's' :: 'o' :: 'n' :: '\n' ::
          (s.data ++ ['\n', '`', '`'])) ++ ['`']) := by
      show "```json\n".data ++ s.data ++ "\n```".data = _
      simp
    unfold extractJsonFromLLMResponse extractJson directStage
    rw [hdata, jsTrim_btick, jsonParse_btick]
    simp only [Option.none_bind]
    show fencedStage _ schema = some rcd
    unfold fencedStage
    have hshape : ('`' :: (('`' :: '`' :: 'j' :: 's' :: 'o' :: 'n' :: '\n' ::
        (s.data ++ ['\n', '`', '`'])) ++ ['`'])) =
        '`' :: '`' :: '`' :: ('j' :: 's' :: 'o' :: 'n' :: '\n' ::
          (s.data ++ '\n' :: '`' :: '`' :: '`' :: [])) := by
      simp
    rw [hshape, fencedFrom_at_fence _ (s.data ++ ['\n']) ?htf]
    · show (jsonParse (s.data ++ ['\n'])).bind (schemaParse schema) = some rcd
      rw [hcap]
      simp only [Option.some_bind]
      exact hvalid
    case htf =>
      unfold tryFenceAt
      have h1 : dropJsonTag ('j' :: 's' :: 'o' :: 'n' :: '\n' ::
          (s.data ++ '\n' :: '`' :: '`' :: '`' :: [])) =
          '\n' :: (s.data ++ '\n' :: '`' :: '`' :: '`' :: []) := rfl
      rw [h1, List.dropWhile_cons, if_pos (by decide), hdw, hsplit]
      rfl
  · have hdata : ("```\n" ++ s ++ "\n```").data =
        '`' :: (('`' :: '`' :: '\n' :: (s.data ++ ['\n', '`', '`'])) ++ ['`']) := by
      show "```\n".data ++ s.data ++ "\n```".data = _
      simp
    unfold extractJsonFromLLMResponse extractJson directStage
    rw [hdata, jsTrim_btick, jsonParse_btick]
    simp only [Option.none_bind]
    show fencedStage _ schema = some rcd
    unfold fencedStage
    have hshape : ('`' :: (('`' :: '`' :: '\n' :: (s.data ++ ['\n', '`', '`'])) ++ ['`'])) =
        '`' :: '`' :: '`' :: ('\n' :: (s.data ++ '\n' :: '`' :: '`' :: '`' :: [])) := by
      simp
    rw [hshape, fencedFrom_at_fence _ (s.data ++ ['\n']) ?htf2]
    · show (jsonParse (s.data ++ ['\n'])).bind (schemaParse schema) = some rcd
      rw [hcap]
      simp only [Option.some_bind]
      exact hvalid
    case htf2 =>
      unfold tryFenceAt
      rw [dropJsonTag_not_j '\n' _ (by decide) (by decide),
        List.dropWhile_cons, if_pos (by decide), hdw, hsplit]
      rfl

/-- C6 counterexample: a schema-valid object whose country_name value is a
three-backtick string defeats the fenced wrapper: the lazy capture stops at
the backticks inside the JSON string, so extraction fails instead of
returning the validated record. -/
theorem C6_backtick_value_counterexample :
    schemaParse OutputSchema (.obj [("country_name", .str "```")]) =
      some (.obj [("country_name", .str "```")]) ∧
    jsonParse ("\x7b\"country_name\":\"```\"\x7d".data) =
      some (.obj [("country_name", .str "```")]) ∧
    extractJsonFromLLMResponse
        ("```json\n" ++ "\x7b\"country_name\":\"```\"\x7d" ++ "\n```")
        OutputSchema = none :=
  ⟨rfl, rfl, rfl⟩

theorem C6_witness :
    (jsonParse ("\x7b\"country_name\":\"Japan\"\x7d".data) =
        some (.obj [("country_name", .str "Japan")]) ∧
      schemaParse OutputSchema (.obj [("country_name", .str "Japan")]) =
        some (.obj [("country_name", .str "Japan")]) ∧
      hasTriple ("\x7b\"country_name\":\"Japan\"\x7d".data) = false ∧
      ("\x7b\"country_name\":\"Japan\"\x7d".data).dropWhile isJsWs =
        "\x7b\"country_name\":\"Japan\"\x7d".data) ∧
    (extractJsonFromLLMResponse
        ("```json\n" ++ "\x7b\"country_name\":\"Japan\"\x7d" ++ "\n```")
        OutputSchema = some (.obj [("country_name", .str "Japan")]) ∧
      extractJsonFromLLMResponse
        ("```\n" ++ "\x7b\"country_name\":\"Japan\"\x7d" ++ "\n```")
        OutputSchema = some (.obj [("country_name", .str "Japan")])) :=
  ⟨⟨rfl, rfl, rfl, rfl⟩,
    C6_fenced_wrap_extracts "\x7b\"country_name\":\"Japan\"\x7d" OutputSchema
      (.obj [("country_name", .str "Japan")]) (.obj [("country_name", .str "Japan")])
      rfl rfl rfl rfl⟩
